import Mathlib

/-!
# Verification of the SeaFormer tiling / reconstruction utilities

Shallow embedding of the tiling planner, tile-rectangle generation, weighted
merge, label-increment utility and fixed-stride cropper of this repository,
together with proofs of the specified properties.

Conventions:
* Python `float` arithmetic on the planner strides is modelled by exact
  rational arithmetic (`ℚ`), matching the spec's description of the stride as
  a real-valued exact division.
* Python `int(x)` (truncation toward zero) is modelled by `pyInt`.
* Pixel coordinates are integers (`ℤ`); image dimensions are `ℕ`.
-/

/-- Python `int()` conversion of a rational: truncation toward zero. -/
def pyInt (q : ℚ) : ℤ := if 0 ≤ q then ⌊q⌋ else ⌈q⌉

/-- Per-axis tile count, from `ImprovedImageTiler.calculate_optimal_tiling`
(`splitpng.py` lines 45-55 for x, 58-66 for y):
`1` when the dimension fits in one tile, else
`math.ceil((dim - tile_size) / (tile_size - min_overlap)) + 1`. -/
def axisTiles (T m dim : ℕ) : ℤ :=
  if dim ≤ T then 1
  else ⌈((dim : ℚ) - (T : ℚ)) / ((T : ℚ) - (m : ℚ))⌉ + 1

/-- Per-axis stride, from `calculate_optimal_tiling`:
`tile_size` when the dimension fits in one tile or when the computed tile
count is `1`, else `(dim - tile_size) / (tiles - 1)`. -/
def axisStride (T m dim : ℕ) : ℚ :=
  if dim ≤ T then (T : ℚ)
  else if axisTiles T m dim = 1 then (T : ℚ)
  else ((dim : ℚ) - (T : ℚ)) / ((axisTiles T m dim : ℚ) - 1)

/-- `ImprovedImageTiler.calculate_optimal_tiling(width, height)`:
returns `(tiles_x, tiles_y, stride_x, stride_y)`.  The early return for
images no larger than one tile (line 41-42) is kept as in the source. -/
def calculate_optimal_tiling (T m width height : ℕ) : ℤ × ℤ × ℚ × ℚ :=
  if width ≤ T ∧ height ≤ T then (1, 1, (T : ℚ), (T : ℚ))
  else (axisTiles T m width, axisTiles T m height,
        axisStride T m width, axisStride T m height)

/-- Tentative tile origin along one axis, `split_image` line 103/104:
`x_start = int(col * stride_x)`. -/
def tile_start0 (stride : ℚ) (c : ℕ) : ℤ := pyInt ((c : ℚ) * stride)

/-- Tile end along one axis, `split_image` line 107/108:
`x_end = min(x_start + tile_size, width)`. -/
def tile_end (T dim : ℕ) (stride : ℚ) (c : ℕ) : ℤ :=
  min (tile_start0 stride c + (T : ℤ)) (dim : ℤ)

/-- Tile start after the boundary correction of `split_image` lines 111-114:
if the tile would be short, shift the start backward. -/
def tile_start (T dim : ℕ) (stride : ℚ) (c : ℕ) : ℤ :=
  if tile_end T dim stride c - tile_start0 stride c < (T : ℤ) then
    max 0 (tile_end T dim stride c - (T : ℤ))
  else tile_start0 stride c

/-- One planned tile, the per-tile record built by `split_image`
lines 151-162. -/
structure TileSpec where
  row : ℕ
  col : ℕ
  x_start : ℤ
  y_start : ℤ
  x_end : ℤ
  y_end : ℤ
  actual_width : ℤ
  actual_height : ℤ
  needs_padding : Bool
deriving DecidableEq

/-- The tile record generated by `split_image` for grid cell `(row, col)`,
lines 100-124 of `splitpng.py`. -/
def mkTileSpec (T width height : ℕ) (stride_x stride_y : ℚ) (row col : ℕ) :
    TileSpec :=
  { row := row
    col := col
    x_start := tile_start T width stride_x col
    y_start := tile_start T height stride_y row
    x_end := tile_end T width stride_x col
    y_end := tile_end T height stride_y row
    actual_width := tile_end T width stride_x col - tile_start T width stride_x col
    actual_height := tile_end T height stride_y row - tile_start T height stride_y row
    needs_padding :=
      decide (tile_end T width stride_x col - tile_start T width stride_x col < (T : ℤ)) ||
      decide (tile_end T height stride_y row - tile_start T height stride_y row < (T : ℤ)) }

/-- The full list of tile records produced by `split_image`'s double loop
(`for row in range(tiles_y): for col in range(tiles_x)`). -/
def split_image_tiles (T m width height : ℕ) : List TileSpec :=
  let plan := calculate_optimal_tiling T m width height
  (List.range plan.2.1.toNat).flatMap (fun row =>
    (List.range plan.1.toNat).map (fun col =>
      mkTileSpec T width height plan.2.2.1 plan.2.2.2 row col))

/-- Evaluation helper: compute `axisTiles` on concrete inputs from the two
rational inequalities characterising the ceiling. -/
lemma axisTiles_eval (T m dim : ℕ) (z : ℤ) (hTd : ¬ dim ≤ T)
    (h1 : (z : ℚ) - 1 < ((dim : ℚ) - (T : ℚ)) / ((T : ℚ) - (m : ℚ)))
    (h2 : ((dim : ℚ) - (T : ℚ)) / ((T : ℚ) - (m : ℚ)) ≤ (z : ℚ)) :
    axisTiles T m dim = z + 1 := by
  rw [axisTiles, if_neg hTd, Int.ceil_eq_iff.mpr ⟨h1, h2⟩]

/-- Evaluation helper: compute `axisStride` in the multi-tile case. -/
lemma axisStride_eval (T m dim : ℕ) (hTd : ¬ dim ≤ T)
    (h1 : axisTiles T m dim ≠ 1) :
    axisStride T m dim = ((dim : ℚ) - (T : ℚ)) / ((axisTiles T m dim : ℚ) - 1) := by
  rw [axisStride, if_neg hTd, if_neg h1]

/-- Evaluation helper: `pyInt` of a nonnegative rational is its floor. -/
lemma pyInt_of_nonneg {q : ℚ} (h : 0 ≤ q) : pyInt q = ⌊q⌋ := by
  rw [pyInt, if_pos h]

lemma axisTiles_512_64_1000 : axisTiles 512 64 1000 = 3 := by
  have h := axisTiles_eval 512 64 1000 2 (by norm_num) (by norm_num) (by norm_num)
  omega

/-! ## Per-axis facts about the planner and the tile rectangles -/

section AxisFacts

variable {T m dim : ℕ}

lemma axisTiles_of_le (h : dim ≤ T) : axisTiles T m dim = 1 := by
  rw [axisTiles, if_pos h]

lemma axisStride_of_le (h : dim ≤ T) : axisStride T m dim = (T : ℚ) := by
  rw [axisStride, if_pos h]

lemma two_le_axisTiles (hm : m < T) (h : T < dim) : 2 ≤ axisTiles T m dim := by
  rw [axisTiles, if_neg (not_le.mpr h)]
  have hnum : (0 : ℚ) < (dim : ℚ) - (T : ℚ) := by
    have : (T : ℚ) < (dim : ℚ) := by exact_mod_cast h
    linarith
  have hden : (0 : ℚ) < (T : ℚ) - (m : ℚ) := by
    have : (m : ℚ) < (T : ℚ) := by exact_mod_cast hm
    linarith
  have : (0 : ℤ) < ⌈((dim : ℚ) - (T : ℚ)) / ((T : ℚ) - (m : ℚ))⌉ :=
    Int.ceil_pos.mpr (div_pos hnum hden)
  omega

lemma axisStride_of_lt (hm : m < T) (h : T < dim) :
    axisStride T m dim = ((dim : ℚ) - (T : ℚ)) / ((axisTiles T m dim : ℚ) - 1) := by
  have h2 := two_le_axisTiles hm h
  rw [axisStride, if_neg (not_le.mpr h), if_neg (by omega)]

lemma axisTiles_sub_one_pos (hm : m < T) (h : T < dim) :
    (0 : ℚ) < (axisTiles T m dim : ℚ) - 1 := by
  have h2 := two_le_axisTiles hm h
  have : (2 : ℚ) ≤ (axisTiles T m dim : ℚ) := by exact_mod_cast h2
  linarith

lemma axisStride_pos (hm : m < T) (h : T < dim) : 0 < axisStride T m dim := by
  rw [axisStride_of_lt hm h]
  have hnum : (0 : ℚ) < (dim : ℚ) - (T : ℚ) := by
    have : (T : ℚ) < (dim : ℚ) := by exact_mod_cast h
    linarith
  exact div_pos hnum (axisTiles_sub_one_pos hm h)

lemma axisStride_nonneg (hm : m < T) : 0 ≤ axisStride T m dim := by
  rcases le_or_lt dim T with h | h
  · rw [axisStride_of_le h]
    exact_mod_cast Nat.zero_le T
  · exact (axisStride_pos hm h).le

/-- The evenly-distributed stride times `tiles - 1` lands exactly on
`dim - tile_size`. -/
lemma axisStride_mul (hm : m < T) (h : T < dim) :
    ((axisTiles T m dim : ℚ) - 1) * axisStride T m dim = (dim : ℚ) - (T : ℚ) := by
  rw [axisStride_of_lt hm h]
  exact mul_div_cancel₀ _ (ne_of_gt (axisTiles_sub_one_pos hm h))

/-- The stride never exceeds `tile_size - min_overlap`: the tile count is the
ceiling of `(dim - T) / (T - m)`, so distributing evenly can only shrink the
spacing. -/
lemma axisStride_le (hm : m < T) (h : T < dim) :
    axisStride T m dim ≤ (T : ℚ) - (m : ℚ) := by
  have hden : (0 : ℚ) < (T : ℚ) - (m : ℚ) := by
    have : (m : ℚ) < (T : ℚ) := by exact_mod_cast hm
    linarith
  have hnum : (0 : ℚ) < (dim : ℚ) - (T : ℚ) := by
    have : (T : ℚ) < (dim : ℚ) := by exact_mod_cast h
    linarith
  have hceil : ((dim : ℚ) - (T : ℚ)) / ((T : ℚ) - (m : ℚ)) ≤ (axisTiles T m dim : ℚ) - 1 := by
    rw [axisTiles, if_neg (not_le.mpr h)]
    push_cast
    have := Int.le_ceil (((dim : ℚ) - (T : ℚ)) / ((T : ℚ) - (m : ℚ)))
    linarith
  rw [axisStride_of_lt hm h, div_le_iff₀ (axisTiles_sub_one_pos hm h)]
  calc (dim : ℚ) - (T : ℚ)
      ≤ ((T : ℚ) - (m : ℚ)) * (((dim : ℚ) - (T : ℚ)) / ((T : ℚ) - (m : ℚ))) := by
        rw [mul_div_cancel₀ _ (ne_of_gt hden)]
    _ ≤ ((T : ℚ) - (m : ℚ)) * ((axisTiles T m dim : ℚ) - 1) :=
        mul_le_mul_of_nonneg_left hceil hden.le

lemma tile_start0_eq_floor {s : ℚ} (hs : 0 ≤ s) (c : ℕ) :
    tile_start0 s c = ⌊(c : ℚ) * s⌋ := by
  rw [tile_start0, pyInt_of_nonneg (mul_nonneg (by positivity) hs)]

lemma tile_start0_zero (s : ℚ) : tile_start0 s 0 = 0 := by
  rw [tile_start0]
  norm_num [pyInt]

lemma tile_start0_nonneg {s : ℚ} (hs : 0 ≤ s) (c : ℕ) : 0 ≤ tile_start0 s c := by
  rw [tile_start0_eq_floor hs]
  exact Int.floor_nonneg.mpr (mul_nonneg (by positivity) hs)

end AxisFacts

section AxisGeometry

variable {T m dim : ℕ}

/-- For a grid index within range, the tentative origin stays at most
`dim - tile_size`, because `c * stride <= (tiles-1) * stride = dim - T`. -/
lemma tile_start0_le (hm : m < T) (h : T < dim) {c : ℕ}
    (hc : (c : ℤ) ≤ axisTiles T m dim - 1) :
    tile_start0 (axisStride T m dim) c ≤ (dim : ℤ) - (T : ℤ) := by
  have hs := (axisStride_pos hm h).le
  rw [tile_start0_eq_floor hs]
  have hcq : (c : ℚ) ≤ (axisTiles T m dim : ℚ) - 1 := by
    have : ((c : ℤ) : ℚ) ≤ ((axisTiles T m dim - 1 : ℤ) : ℚ) := by exact_mod_cast hc
    push_cast at this ⊢
    linarith
  have hmul : (c : ℚ) * axisStride T m dim ≤ (dim : ℚ) - (T : ℚ) := by
    calc (c : ℚ) * axisStride T m dim
        ≤ ((axisTiles T m dim : ℚ) - 1) * axisStride T m dim :=
          mul_le_mul_of_nonneg_right hcq hs
      _ = (dim : ℚ) - (T : ℚ) := axisStride_mul hm h
  have : ((dim : ℚ) - (T : ℚ)) = (((dim : ℤ) - (T : ℤ) : ℤ) : ℚ) := by push_cast; ring
  rw [this] at hmul
  calc ⌊(c : ℚ) * axisStride T m dim⌋
      ≤ ⌊(((dim : ℤ) - (T : ℤ) : ℤ) : ℚ)⌋ := Int.floor_le_floor hmul
    _ = (dim : ℤ) - (T : ℤ) := Int.floor_intCast _

/-- In the multi-tile case every in-range tile reaches its full extent:
`x_end = x_start0 + T`. -/
lemma tile_end_eq (hm : m < T) (h : T < dim) {c : ℕ}
    (hc : (c : ℤ) ≤ axisTiles T m dim - 1) :
    tile_end T dim (axisStride T m dim) c =
      tile_start0 (axisStride T m dim) c + (T : ℤ) := by
  have := tile_start0_le hm h hc
  rw [tile_end, min_eq_left (by omega)]

/-- In the multi-tile case the boundary correction of lines 111-114 never
fires: the recorded start is the tentative origin. -/
lemma tile_start_eq (hm : m < T) (h : T < dim) {c : ℕ}
    (hc : (c : ℤ) ≤ axisTiles T m dim - 1) :
    tile_start T dim (axisStride T m dim) c = tile_start0 (axisStride T m dim) c := by
  rw [tile_start, tile_end_eq hm h hc, if_neg (by omega)]

/-- Consecutive tentative origins advance by at most `tile_size - min_overlap`. -/
lemma tile_start0_succ_le (hm : m < T) (h : T < dim) (c : ℕ) :
    tile_start0 (axisStride T m dim) (c + 1) ≤
      tile_start0 (axisStride T m dim) c + ((T : ℤ) - (m : ℤ)) := by
  have hs := (axisStride_pos hm h).le
  rw [tile_start0_eq_floor hs, tile_start0_eq_floor hs]
  have hle : ((c + 1 : ℕ) : ℚ) * axisStride T m dim ≤
      (c : ℚ) * axisStride T m dim + (((T : ℤ) - (m : ℤ) : ℤ) : ℚ) := by
    have hstep := axisStride_le hm h
    push_cast
    nlinarith [@axisStride_nonneg T m dim hm]
  calc ⌊((c + 1 : ℕ) : ℚ) * axisStride T m dim⌋
      ≤ ⌊(c : ℚ) * axisStride T m dim + (((T : ℤ) - (m : ℤ) : ℤ) : ℚ)⌋ :=
        Int.floor_le_floor hle
    _ = ⌊(c : ℚ) * axisStride T m dim⌋ + ((T : ℤ) - (m : ℤ)) := Int.floor_add_int _ _

/-- The last tile's tentative origin is exactly `dim - tile_size`. -/
lemma tile_start0_last (hm : m < T) (h : T < dim) :
    tile_start0 (axisStride T m dim) (axisTiles T m dim - 1).toNat =
      (dim : ℤ) - (T : ℤ) := by
  have h2 := two_le_axisTiles hm h
  have hs := (axisStride_pos hm h).le
  rw [tile_start0_eq_floor hs]
  have hcast : (((axisTiles T m dim - 1).toNat : ℕ) : ℚ) = (axisTiles T m dim : ℚ) - 1 := by
    have : ((axisTiles T m dim - 1).toNat : ℤ) = axisTiles T m dim - 1 :=
      Int.toNat_of_nonneg (by omega)
    exact_mod_cast congrArg (fun z : ℤ => (z : ℚ)) this
  rw [hcast, axisStride_mul hm h]
  have : ((dim : ℚ) - (T : ℚ)) = (((dim : ℤ) - (T : ℤ) : ℤ) : ℚ) := by push_cast; ring
  rw [this, Int.floor_intCast]

/-- The last tile ends exactly at the image boundary. -/
lemma tile_end_last (hm : m < T) (h : T < dim) :
    tile_end T dim (axisStride T m dim) (axisTiles T m dim - 1).toNat = (dim : ℤ) := by
  have h2 := two_le_axisTiles hm h
  have hc : (((axisTiles T m dim - 1).toNat : ℕ) : ℤ) = axisTiles T m dim - 1 :=
    Int.toNat_of_nonneg (by omega)
  rw [tile_end_eq hm h (by omega), tile_start0_last hm h]
  omega

/-- Degenerate axis (`dim ≤ T`): the single tile is exactly `[0, dim)`. -/
lemma tile_single_of_le (h : dim ≤ T) (s : ℚ) :
    tile_start T dim s 0 = 0 ∧ tile_end T dim s 0 = (dim : ℤ) := by
  have he : tile_end T dim s 0 = (dim : ℤ) := by
    rw [tile_end, tile_start0_zero, min_eq_right (by omega)]
  refine ⟨?_, he⟩
  rw [tile_start, he, tile_start0_zero]
  split <;> omega

end AxisGeometry

section AxisCover

variable {T m dim : ℕ}

/-- Covering, multi-tile case, by induction over the grid index: everything
left of `tile_end k` is covered by some tile with index at most `k`. -/
lemma axis_cover_aux (hm : m < T) (h : T < dim) :
    ∀ k : ℕ, (k : ℤ) ≤ axisTiles T m dim - 1 →
    ∀ p : ℤ, 0 ≤ p → p < tile_end T dim (axisStride T m dim) k →
    ∃ c : ℕ, c ≤ k ∧ tile_start T dim (axisStride T m dim) c ≤ p ∧
      p < tile_end T dim (axisStride T m dim) c := by
  intro k
  induction k with
  | zero =>
    intro hk p hp0 hpe
    refine ⟨0, le_refl 0, ?_, hpe⟩
    rw [tile_start_eq hm h hk, tile_start0_zero]
    exact hp0
  | succ k ih =>
    intro hk p hp0 hpe
    by_cases hle : tile_start0 (axisStride T m dim) (k + 1) ≤ p
    · exact ⟨k + 1, le_refl _, by rwa [tile_start_eq hm h (by push_cast at hk ⊢; omega)], hpe⟩
    · push_neg at hle
      have hk' : (k : ℤ) ≤ axisTiles T m dim - 1 := by push_cast at hk; omega
      have hgap := tile_start0_succ_le hm h k
      have hend : tile_end T dim (axisStride T m dim) k =
          tile_start0 (axisStride T m dim) k + (T : ℤ) := tile_end_eq hm h hk'
      have hpk : p < tile_end T dim (axisStride T m dim) k := by omega
      obtain ⟨c, hck, hc1, hc2⟩ := ih hk' p hp0 hpk
      exact ⟨c, hck.trans (Nat.le_succ k), hc1, hc2⟩

/-- 1-D covering: every pixel `p ∈ [0, dim)` lies in some tile interval. -/
lemma axis_cover (hm : m < T) :
    ∀ p : ℤ, 0 ≤ p → p < (dim : ℤ) →
    ∃ c : ℕ, (c : ℤ) < axisTiles T m dim ∧
      tile_start T dim (axisStride T m dim) c ≤ p ∧
      p < tile_end T dim (axisStride T m dim) c := by
  intro p hp0 hpd
  rcases le_or_lt dim T with hle | hlt
  · obtain ⟨h1, h2⟩ := tile_single_of_le hle (axisStride T m dim)
    exact ⟨0, by rw [axisTiles_of_le hle]; omega, by omega, by omega⟩
  · have h2 := two_le_axisTiles hm hlt
    have hk : (((axisTiles T m dim - 1).toNat : ℕ) : ℤ) = axisTiles T m dim - 1 :=
      Int.toNat_of_nonneg (by omega)
    have hlast := tile_end_last hm hlt
    obtain ⟨c, hck, hc1, hc2⟩ :=
      axis_cover_aux hm hlt (axisTiles T m dim - 1).toNat (by omega) p hp0 (by omega)
    refine ⟨c, ?_, hc1, hc2⟩
    have : (c : ℤ) ≤ ((axisTiles T m dim - 1).toNat : ℤ) := by exact_mod_cast hck
    omega

/-- Tile intervals stay inside `[0, dim)`. -/
lemma axis_in_bounds (hm : m < T) (c : ℕ) :
    0 ≤ tile_start T dim (axisStride T m dim) c ∧
      tile_end T dim (axisStride T m dim) c ≤ (dim : ℤ) := by
  constructor
  · rw [tile_start]
    split
    · omega
    · exact tile_start0_nonneg (axisStride_nonneg hm) c
  · rw [tile_end]
    omega

/-- When the axis dimension holds at least one full tile, every in-range tile
has full extent `tile_size`. -/
lemma axis_actual (hm : m < T) (hTd : T ≤ dim) {c : ℕ}
    (hc : (c : ℤ) < axisTiles T m dim) :
    tile_end T dim (axisStride T m dim) c - tile_start T dim (axisStride T m dim) c
      = (T : ℤ) := by
  rcases eq_or_lt_of_le hTd with heq | hlt
  · have h1 := @axisTiles_of_le T m dim (le_of_eq heq.symm)
    have hc0 : c = 0 := by
      have : (c : ℤ) < 1 := by rw [h1] at hc; exact hc
      omega
    subst hc0
    obtain ⟨hs, he⟩ := tile_single_of_le (le_of_eq heq.symm) (axisStride T m dim)
    omega
  · rw [tile_start_eq hm hlt (by omega), tile_end_eq hm hlt (by omega)]
    omega

/-- Horizontally adjacent in-range tiles overlap by at least `min_overlap`. -/
lemma axis_overlap (hm : m < T) (h : T < dim) {c : ℕ}
    (hc : (c : ℤ) + 1 ≤ axisTiles T m dim - 1) :
    (m : ℤ) ≤ tile_end T dim (axisStride T m dim) c -
      tile_start T dim (axisStride T m dim) (c + 1) := by
  have hc' : (c : ℤ) ≤ axisTiles T m dim - 1 := by omega
  have hsucc : ((c + 1 : ℕ) : ℤ) ≤ axisTiles T m dim - 1 := by push_cast; omega
  rw [tile_end_eq hm h hc', tile_start_eq hm h hsucc]
  have := tile_start0_succ_le hm h c
  omega

end AxisCover

/-! ## The tile list produced by `split_image` -/

/-- The early-return of `calculate_optimal_tiling` agrees with the per-axis
branches, so the planner output is the per-axis data in every case. -/
lemma calculate_optimal_tiling_eq (T m width height : ℕ) :
    calculate_optimal_tiling T m width height =
      (axisTiles T m width, axisTiles T m height,
       axisStride T m width, axisStride T m height) := by
  rw [calculate_optimal_tiling]
  split
  · next hb =>
    rw [axisTiles_of_le hb.1, axisTiles_of_le hb.2,
        axisStride_of_le hb.1, axisStride_of_le hb.2]
  · rfl

lemma mem_split_image_tiles {T m width height : ℕ} {t : TileSpec} :
    t ∈ split_image_tiles T m width height ↔
      ∃ row : ℕ, row < (axisTiles T m height).toNat ∧
      ∃ col : ℕ, col < (axisTiles T m width).toNat ∧
        t = mkTileSpec T width height (axisStride T m width) (axisStride T m height)
              row col := by
  rw [split_image_tiles, calculate_optimal_tiling_eq]
  simp only [List.mem_flatMap, List.mem_map, List.mem_range]
  constructor
  · rintro ⟨row, hrow, col, hcol, rfl⟩
    exact ⟨row, hrow, col, hcol, rfl⟩
  · rintro ⟨row, hrow, col, hcol, rfl⟩
    exact ⟨row, hrow, col, hcol, rfl⟩

lemma mkTileSpec_x_start (T width height : ℕ) (sx sy : ℚ) (row col : ℕ) :
    (mkTileSpec T width height sx sy row col).x_start = tile_start T width sx col := rfl

lemma mkTileSpec_x_end (T width height : ℕ) (sx sy : ℚ) (row col : ℕ) :
    (mkTileSpec T width height sx sy row col).x_end = tile_end T width sx col := rfl

lemma mkTileSpec_y_start (T width height : ℕ) (sx sy : ℚ) (row col : ℕ) :
    (mkTileSpec T width height sx sy row col).y_start = tile_start T height sy row := rfl

lemma mkTileSpec_y_end (T width height : ℕ) (sx sy : ℚ) (row col : ℕ) :
    (mkTileSpec T width height sx sy row col).y_end = tile_end T height sy row := rfl

lemma mkTileSpec_row (T width height : ℕ) (sx sy : ℚ) (row col : ℕ) :
    (mkTileSpec T width height sx sy row col).row = row := rfl

lemma mkTileSpec_col (T width height : ℕ) (sx sy : ℚ) (row col : ℕ) :
    (mkTileSpec T width height sx sy row col).col = col := rfl

lemma mkTileSpec_actual_width (T width height : ℕ) (sx sy : ℚ) (row col : ℕ) :
    (mkTileSpec T width height sx sy row col).actual_width =
      tile_end T width sx col - tile_start T width sx col := rfl

lemma mkTileSpec_actual_height (T width height : ℕ) (sx sy : ℚ) (row col : ℕ) :
    (mkTileSpec T width height sx sy row col).actual_height =
      tile_end T height sy row - tile_start T height sy row := rfl

lemma mkTileSpec_needs_padding (T width height : ℕ) (sx sy : ℚ) (row col : ℕ) :
    (mkTileSpec T width height sx sy row col).needs_padding = true ↔
      (tile_end T width sx col - tile_start T width sx col < (T : ℤ) ∨
       tile_end T height sy row - tile_start T height sy row < (T : ℤ)) := by
  simp [mkTileSpec]

/-- C1 -- Covering: for every valid input the union of the tile rectangles
produced by `calculate_optimal_tiling` followed by `split_image`'s rectangle
generation is exactly the full region `[0, width) x [0, height)`: every
source pixel lies in at least one tile rectangle, and every tile rectangle
lies inside the image. -/
theorem C1_covering (T m width height : ℕ) (_hT : 0 < T) (hm : m < T)
    (_hw : 0 < width) (_hh : 0 < height) :
    (∀ px py : ℤ, 0 ≤ px → px < (width : ℤ) → 0 ≤ py → py < (height : ℤ) →
      ∃ t ∈ split_image_tiles T m width height,
        t.x_start ≤ px ∧ px < t.x_end ∧ t.y_start ≤ py ∧ py < t.y_end) ∧
    (∀ t ∈ split_image_tiles T m width height,
      0 ≤ t.x_start ∧ t.x_end ≤ (width : ℤ) ∧ 0 ≤ t.y_start ∧ t.y_end ≤ (height : ℤ)) := by
  constructor
  · intro px py hpx0 hpxw hpy0 hpyh
    obtain ⟨cx, hcx, hx1, hx2⟩ := @axis_cover T m width hm px hpx0 hpxw
    obtain ⟨cy, hcy, hy1, hy2⟩ := @axis_cover T m height hm py hpy0 hpyh
    refine ⟨mkTileSpec T width height (axisStride T m width) (axisStride T m height) cy cx,
      mem_split_image_tiles.mpr ⟨cy, by omega, cx, by omega, rfl⟩, hx1, hx2, hy1, hy2⟩
  · intro t ht
    obtain ⟨row, _hrow, col, _hcol, rfl⟩ := mem_split_image_tiles.mp ht
    rw [mkTileSpec_x_start, mkTileSpec_x_end, mkTileSpec_y_start, mkTileSpec_y_end]
    obtain ⟨hx1, hx2⟩ := @axis_in_bounds T m width hm col
    obtain ⟨hy1, hy2⟩ := @axis_in_bounds T m height hm row
    exact ⟨hx1, hx2, hy1, hy2⟩

theorem C1_covering_witness :
    ∃ t ∈ split_image_tiles 512 64 1000 1000,
      t.x_start ≤ (999 : ℤ) ∧ (999 : ℤ) < t.x_end ∧
      t.y_start ≤ (500 : ℤ) ∧ (500 : ℤ) < t.y_end :=
  (C1_covering 512 64 1000 1000 (by decide) (by decide) (by decide) (by decide)).1
    999 500 (by decide) (by decide) (by decide) (by decide)

/-- If some grid index beyond the first exists along an axis, that axis
dimension exceeds the tile size. -/
lemma axis_lt_of_two_tiles {T m dim c : ℕ}
    (hc : c + 1 < (axisTiles T m dim).toNat) : T < dim := by
  by_contra hle
  push_neg at hle
  rw [axisTiles_of_le hle] at hc
  omega

/-- C2 -- Overlap floor: adjacent tiles in the same row overlap by at least
`min_overlap` pixels in x, and adjacent tiles in the same column overlap by
at least `min_overlap` pixels in y. -/
theorem C2_overlap (T m width height : ℕ) (_hT : 0 < T) (hm : m < T)
    (_hw : 0 < width) (_hh : 0 < height) :
    ∀ t1 ∈ split_image_tiles T m width height,
    ∀ t2 ∈ split_image_tiles T m width height,
      (t1.row = t2.row → t2.col = t1.col + 1 → (m : ℤ) ≤ t1.x_end - t2.x_start) ∧
      (t1.col = t2.col → t2.row = t1.row + 1 → (m : ℤ) ≤ t1.y_end - t2.y_start) := by
  intro t1 ht1 t2 ht2
  obtain ⟨row1, hrow1, col1, hcol1, rfl⟩ := mem_split_image_tiles.mp ht1
  obtain ⟨row2, hrow2, col2, hcol2, rfl⟩ := mem_split_image_tiles.mp ht2
  constructor
  · intro _hr hc
    rw [mkTileSpec_col, mkTileSpec_col] at hc
    subst hc
    rw [mkTileSpec_x_end, mkTileSpec_x_start]
    have hTw : T < width := @axis_lt_of_two_tiles T m width col1 hcol2
    exact axis_overlap hm hTw (by omega)
  · intro _hc hr
    rw [mkTileSpec_row, mkTileSpec_row] at hr
    subst hr
    rw [mkTileSpec_y_end, mkTileSpec_y_start]
    have hTh : T < height := @axis_lt_of_two_tiles T m height row1 hrow2
    exact axis_overlap hm hTh (by omega)

lemma mem_tile_1000_00 :
    mkTileSpec 512 1000 1000 (axisStride 512 64 1000) (axisStride 512 64 1000) 0 0 ∈
      split_image_tiles 512 64 1000 1000 :=
  mem_split_image_tiles.mpr
    ⟨0, by rw [axisTiles_512_64_1000]; norm_num, 0, by rw [axisTiles_512_64_1000]; norm_num, rfl⟩

lemma mem_tile_1000_01 :
    mkTileSpec 512 1000 1000 (axisStride 512 64 1000) (axisStride 512 64 1000) 0 1 ∈
      split_image_tiles 512 64 1000 1000 :=
  mem_split_image_tiles.mpr
    ⟨0, by rw [axisTiles_512_64_1000]; norm_num, 1, by rw [axisTiles_512_64_1000]; norm_num, rfl⟩

theorem C2_overlap_witness :
    (64 : ℤ) ≤
      (mkTileSpec 512 1000 1000 (axisStride 512 64 1000) (axisStride 512 64 1000) 0 0).x_end -
      (mkTileSpec 512 1000 1000 (axisStride 512 64 1000) (axisStride 512 64 1000) 0 1).x_start :=
  ((C2_overlap 512 64 1000 1000 (by decide) (by decide) (by decide) (by decide)
      _ mem_tile_1000_00 _ mem_tile_1000_01).1 rfl rfl)

/-- C5 -- Full-size tiles: on any image at least one tile wide/tall, every
tile reaches the full `tile_size` extent and needs no padding; in general
`needs_padding` is true exactly when one of the actual extents falls short,
which can happen only when the image itself is smaller than `tile_size` on
the corresponding axis. -/
theorem C5_full_size (T m width height : ℕ) (_hT : 0 < T) (hm : m < T)
    (_hw : 0 < width) (_hh : 0 < height) :
    ∀ t ∈ split_image_tiles T m width height,
      (T ≤ width → t.actual_width = (T : ℤ)) ∧
      (T ≤ height → t.actual_height = (T : ℤ)) ∧
      (T ≤ width → T ≤ height → t.needs_padding = false) ∧
      (t.needs_padding = true ↔
        (t.actual_width < (T : ℤ) ∨ t.actual_height < (T : ℤ))) ∧
      (t.actual_width < (T : ℤ) → width < T) ∧
      (t.actual_height < (T : ℤ) → height < T) := by
  intro t ht
  obtain ⟨row, hrow, col, hcol, rfl⟩ := mem_split_image_tiles.mp ht
  have hw' : T ≤ width → tile_end T width (axisStride T m width) col -
      tile_start T width (axisStride T m width) col = (T : ℤ) := fun hTw =>
    axis_actual hm hTw (by omega)
  have hh' : T ≤ height → tile_end T height (axisStride T m height) row -
      tile_start T height (axisStride T m height) row = (T : ℤ) := fun hTh =>
    axis_actual hm hTh (by omega)
  refine ⟨?_, ?_, ?_, ?_, ?_, ?_⟩
  · intro hTw
    rw [mkTileSpec_actual_width]
    exact hw' hTw
  · intro hTh
    rw [mkTileSpec_actual_height]
    exact hh' hTh
  · intro hTw hTh
    have h1 := hw' hTw
    have h2 := hh' hTh
    rw [← Bool.not_eq_true, mkTileSpec_needs_padding]
    omega
  · rw [mkTileSpec_needs_padding, mkTileSpec_actual_width, mkTileSpec_actual_height]
  · intro hlt
    rw [mkTileSpec_actual_width] at hlt
    by_contra hge
    push_neg at hge
    have := hw' hge
    omega
  · intro hlt
    rw [mkTileSpec_actual_height] at hlt
    by_contra hge
    push_neg at hge
    have := hh' hge
    omega

theorem C5_full_size_witness :
    (512 ≤ 1000 →
      (mkTileSpec 512 1000 1000 (axisStride 512 64 1000) (axisStride 512 64 1000) 0 0).actual_width
        = (512 : ℤ)) ∧
    (512 ≤ 1000 →
      (mkTileSpec 512 1000 1000 (axisStride 512 64 1000) (axisStride 512 64 1000) 0 0).actual_height
        = (512 : ℤ)) ∧
    (512 ≤ 1000 → 512 ≤ 1000 →
      (mkTileSpec 512 1000 1000 (axisStride 512 64 1000) (axisStride 512 64 1000) 0 0).needs_padding
        = false) ∧
    ((mkTileSpec 512 1000 1000 (axisStride 512 64 1000) (axisStride 512 64 1000) 0 0).needs_padding
        = true ↔
      ((mkTileSpec 512 1000 1000 (axisStride 512 64 1000) (axisStride 512 64 1000) 0 0).actual_width
          < (512 : ℤ) ∨
       (mkTileSpec 512 1000 1000 (axisStride 512 64 1000) (axisStride 512 64 1000) 0 0).actual_height
          < (512 : ℤ))) ∧
    ((mkTileSpec 512 1000 1000 (axisStride 512 64 1000) (axisStride 512 64 1000) 0 0).actual_width
        < (512 : ℤ) → 1000 < 512) ∧
    ((mkTileSpec 512 1000 1000 (axisStride 512 64 1000) (axisStride 512 64 1000) 0 0).actual_height
        < (512 : ℤ) → 1000 < 512) :=
  C5_full_size 512 64 1000 1000 (by decide) (by decide) (by decide) (by decide)
    _ mem_tile_1000_00

/-! ## Planner formulas (C3, C4, C8) -/

/-- C3 -- counterexample: at `width = 1000, height = 50, tile_size = 512,
min_overlap = 64` (a valid input) the planner returns `tiles_y = 1`, while
the claimed per-axis formula `ceil((dim - T)/(T - m)) + 1` evaluates to `0`
for `dim = 50`: the formula does not describe the planner on axes whose
dimension is at most `min_overlap`. -/
theorem C3_counterexample :
    (calculate_optimal_tiling 512 64 1000 50).2.1 = 1 ∧
    (⌈((50 : ℚ) - (512 : ℚ)) / ((512 : ℚ) - (64 : ℚ))⌉ + 1 : ℤ) = 0 := by
  constructor
  · rw [calculate_optimal_tiling_eq]
    exact @axisTiles_of_le 512 64 50 (by norm_num)
  · have : (⌈((50 : ℚ) - (512 : ℚ)) / ((512 : ℚ) - (64 : ℚ))⌉ : ℤ) = -1 := by
      rw [Int.ceil_eq_iff]
      constructor <;> norm_num
    omega

/-- C3 (amended) -- the planner returns `(1, 1, T, T)` when both dimensions
fit in one tile; per axis, an axis with `dim <= tile_size` gets one tile
with stride `tile_size`, and an axis with `dim > tile_size` gets
`ceil((dim - T)/(T - m)) + 1 > 1` tiles with stride `(dim - T)/(tiles - 1)`. -/
theorem C3_planner_formulas (T m width height : ℕ) (_hT : 0 < T) (hm : m < T)
    (_hw : 0 < width) (_hh : 0 < height) :
    ((width ≤ T ∧ height ≤ T) →
        calculate_optimal_tiling T m width height = (1, 1, (T : ℚ), (T : ℚ))) ∧
    (width ≤ T → (calculate_optimal_tiling T m width height).1 = 1 ∧
        (calculate_optimal_tiling T m width height).2.2.1 = (T : ℚ)) ∧
    (T < width → (calculate_optimal_tiling T m width height).1 =
          ⌈((width : ℚ) - (T : ℚ)) / ((T : ℚ) - (m : ℚ))⌉ + 1 ∧
        1 < (calculate_optimal_tiling T m width height).1 ∧
        (calculate_optimal_tiling T m width height).2.2.1 =
          ((width : ℚ) - (T : ℚ)) /
            (((calculate_optimal_tiling T m width height).1 : ℚ) - 1)) ∧
    (height ≤ T → (calculate_optimal_tiling T m width height).2.1 = 1 ∧
        (calculate_optimal_tiling T m width height).2.2.2 = (T : ℚ)) ∧
    (T < height → (calculate_optimal_tiling T m width height).2.1 =
          ⌈((height : ℚ) - (T : ℚ)) / ((T : ℚ) - (m : ℚ))⌉ + 1 ∧
        1 < (calculate_optimal_tiling T m width height).2.1 ∧
        (calculate_optimal_tiling T m width height).2.2.2 =
          ((height : ℚ) - (T : ℚ)) /
            (((calculate_optimal_tiling T m width height).2.1 : ℚ) - 1)) := by
  simp only [calculate_optimal_tiling_eq]
  refine ⟨?_, ?_, ?_, ?_, ?_⟩
  · rintro ⟨h1, h2⟩
    rw [axisTiles_of_le h1, axisTiles_of_le h2, axisStride_of_le h1, axisStride_of_le h2]
  · intro h
    exact ⟨axisTiles_of_le h, axisStride_of_le h⟩
  · intro h
    refine ⟨by rw [axisTiles, if_neg (not_le.mpr h)], ?_, axisStride_of_lt hm h⟩
    have := @two_le_axisTiles T m width hm h
    omega
  · intro h
    exact ⟨axisTiles_of_le h, axisStride_of_le h⟩
  · intro h
    refine ⟨by rw [axisTiles, if_neg (not_le.mpr h)], ?_, axisStride_of_lt hm h⟩
    have := @two_le_axisTiles T m height hm h
    omega

theorem C3_planner_formulas_witness :
    (calculate_optimal_tiling 512 64 1000 50).2.1 = 1 ∧
    (calculate_optimal_tiling 512 64 1000 50).2.2.2 = (512 : ℚ) :=
  (C3_planner_formulas 512 64 1000 50 (by decide) (by decide) (by decide)
    (by decide)).2.2.2.1 (by decide)

lemma axisTiles_512_64_1413 : axisTiles 512 64 1413 = 4 := by
  have h := axisTiles_eval 512 64 1413 3 (by norm_num) (by norm_num) (by norm_num)
  omega

lemma axisStride_512_64_1413 : axisStride 512 64 1413 = 901 / 3 := by
  rw [axisStride_eval 512 64 1413 (by norm_num) (by rw [axisTiles_512_64_1413]; norm_num),
      axisTiles_512_64_1413]
  norm_num

/-- C4 -- counterexample: for the valid input `width = 1413, height = 100,
tile_size = 512, min_overlap = 64` the planner stride is `901/3`, and the
tentative origin of column 2 computed by `split_image` (`int(col * stride)`)
is `600`, whereas rounding `2 * stride = 600.67` to the nearest integer
gives `601`: the tentative origin is not `round(col * stride_x)`. -/
theorem C4_counterexample :
    tile_start0 ((calculate_optimal_tiling 512 64 1413 100).2.2.1) 2 = 600 ∧
    round ((2 : ℚ) * (calculate_optimal_tiling 512 64 1413 100).2.2.1) = 601 := by
  have hplan : (calculate_optimal_tiling 512 64 1413 100).2.2.1 = 901 / 3 := by
    rw [calculate_optimal_tiling_eq]
    exact axisStride_512_64_1413
  constructor
  · rw [hplan, tile_start0, pyInt_of_nonneg (by norm_num)]
    rw [show ((2 : ℕ) : ℚ) * (901 / 3) = 1802 / 3 by norm_num, Int.floor_eq_iff]
    norm_num
  · rw [hplan, round_eq, show (2 : ℚ) * (901 / 3) + 1 / 2 = 3607 / 6 by norm_num,
        Int.floor_eq_iff]
    norm_num

/-- C4 (amended) -- the tentative tile origin before boundary correction is
`int(col * stride)`, Python truncation toward zero, which equals the floor
`⌊col * stride⌋` because the planner strides are nonnegative (not rounding
to the nearest integer). -/
theorem C4_tentative_origin (T m width height : ℕ) (_hT : 0 < T) (hm : m < T)
    (_hw : 0 < width) (_hh : 0 < height) (row col : ℕ) :
    tile_start0 ((calculate_optimal_tiling T m width height).2.2.1) col =
      ⌊(col : ℚ) * (calculate_optimal_tiling T m width height).2.2.1⌋ ∧
    tile_start0 ((calculate_optimal_tiling T m width height).2.2.2) row =
      ⌊(row : ℚ) * (calculate_optimal_tiling T m width height).2.2.2⌋ := by
  simp only [calculate_optimal_tiling_eq]
  exact ⟨tile_start0_eq_floor (axisStride_nonneg hm) col,
         tile_start0_eq_floor (axisStride_nonneg hm) row⟩

theorem C4_tentative_origin_witness :
    tile_start0 ((calculate_optimal_tiling 512 64 1413 100).2.2.1) 2 =
      ⌊((2 : ℕ) : ℚ) * (calculate_optimal_tiling 512 64 1413 100).2.2.1⌋ ∧
    tile_start0 ((calculate_optimal_tiling 512 64 1413 100).2.2.2) 0 =
      ⌊((0 : ℕ) : ℚ) * (calculate_optimal_tiling 512 64 1413 100).2.2.2⌋ :=
  C4_tentative_origin 512 64 1413 100 (by decide) (by decide) (by decide) (by decide) 0 2

lemma axisStride_512_64_1000 : axisStride 512 64 1000 = 244 := by
  rw [axisStride_eval 512 64 1000 (by norm_num) (by rw [axisTiles_512_64_1000]; norm_num),
      axisTiles_512_64_1000]
  norm_num

/-- C8 -- Concrete scenario: for a `1000 x 1000` image with `tile_size = 512`
and `min_overlap = 64` the planner returns `tiles_x = ceil(488/448) + 1 = 3`
with `stride_x = (1000 - 512) / 2 = 244`, and every tile of the last column
(`col = 2`) ends exactly at `x_end = 1000`. -/
theorem C8_concrete_scenario :
    (calculate_optimal_tiling 512 64 1000 1000).1 = 3 ∧
    (calculate_optimal_tiling 512 64 1000 1000).1 =
      ⌈((1000 : ℚ) - (512 : ℚ)) / ((512 : ℚ) - (64 : ℚ))⌉ + 1 ∧
    (calculate_optimal_tiling 512 64 1000 1000).2.2.1 =
      ((1000 : ℚ) - (512 : ℚ)) / ((3 : ℚ) - 1) ∧
    (calculate_optimal_tiling 512 64 1000 1000).2.2.1 = (244 : ℚ) ∧
    (∀ t ∈ split_image_tiles 512 64 1000 1000, t.col = 2 → t.x_end = (1000 : ℤ)) := by
  have hceil : (⌈((1000 : ℚ) - (512 : ℚ)) / ((512 : ℚ) - (64 : ℚ))⌉ : ℤ) = 2 := by
    rw [Int.ceil_eq_iff]
    constructor <;> norm_num
  have hplan1 : (calculate_optimal_tiling 512 64 1000 1000).1 = 3 := by
    rw [calculate_optimal_tiling_eq]
    exact axisTiles_512_64_1000
  have hplans : (calculate_optimal_tiling 512 64 1000 1000).2.2.1 = 244 := by
    rw [calculate_optimal_tiling_eq]
    exact axisStride_512_64_1000
  refine ⟨hplan1, by omega, by rw [hplans]; norm_num, hplans, ?_⟩
  intro t ht hcol
  obtain ⟨row, hrow, col, hcollt, rfl⟩ := mem_split_image_tiles.mp ht
  rw [mkTileSpec_col] at hcol
  subst hcol
  rw [mkTileSpec_x_end]
  have hlast := @tile_end_last 512 64 1000 (by norm_num) (by norm_num)
  rw [axisTiles_512_64_1000] at hlast
  norm_num at hlast
  exact_mod_cast hlast

/-! ## Per-tile blending weights (`ImprovedImageMerger.merge_single_image`,
lines 302-316) -/

/-- One iteration of the row-fade loop (lines 311-313): multiply row `i` and
row `height - 1 - i` (numpy index `-(i+1)`) by `(i + 1) / fade_height`. -/
def rowStep (fh hdim : ℕ) (i : ℕ) (wgt : ℕ → ℕ → ℚ) : ℕ → ℕ → ℚ :=
  let w1 : ℕ → ℕ → ℚ :=
    fun r c => if r = i then wgt r c * (((i : ℚ) + 1) / (fh : ℚ)) else wgt r c
  fun r c => if r = hdim - 1 - i then w1 r c * (((i : ℚ) + 1) / (fh : ℚ)) else w1 r c

/-- `for i in range(k)` over `rowStep`. -/
def rowLoop (fh hdim : ℕ) (wgt : ℕ → ℕ → ℚ) : ℕ → ℕ → ℕ → ℚ
  | 0 => wgt
  | k + 1 => rowStep fh hdim k (rowLoop fh hdim wgt k)

/-- One iteration of the column-fade loop (lines 314-316). -/
def colStep (fw wdim : ℕ) (j : ℕ) (wgt : ℕ → ℕ → ℚ) : ℕ → ℕ → ℚ :=
  let w1 : ℕ → ℕ → ℚ :=
    fun r c => if c = j then wgt r c * (((j : ℚ) + 1) / (fw : ℚ)) else wgt r c
  fun r c => if c = wdim - 1 - j then w1 r c * (((j : ℚ) + 1) / (fw : ℚ)) else w1 r c

/-- `for j in range(k)` over `colStep`. -/
def colLoop (fw wdim : ℕ) (wgt : ℕ → ℕ → ℚ) : ℕ → ℕ → ℕ → ℚ
  | 0 => wgt
  | k + 1 => colStep fw wdim k (colLoop fw wdim wgt k)

/-- The per-tile weight mask built by `merge_single_image` lines 302-316:
all ones, then, only when both fade extents are positive, the row loop
followed by the column loop. -/
def tile_weight (actual_height actual_width : ℕ) : ℕ → ℕ → ℚ :=
  let fade_width := min 32 (actual_width / 4)
  let fade_height := min 32 (actual_height / 4)
  let w0 : ℕ → ℕ → ℚ := fun _ _ => 1
  if 0 < fade_width ∧ 0 < fade_height then
    colLoop fade_width actual_width (rowLoop fade_height actual_height w0 fade_height)
      fade_width
  else w0

/-- Closed form of the per-axis linear ramp: `(k+1)/fade` in the leading
band, `(dim-k)/fade` in the trailing band, `1` in the interior. -/
def fadeFactor (fade dim k : ℕ) : ℚ :=
  if k < fade then ((k : ℚ) + 1) / (fade : ℚ)
  else if dim - 1 - k < fade then ((dim : ℚ) - (k : ℚ)) / (fade : ℚ)
  else 1

/-- Modelled from the spec claim: a weight mask in which the linear ramp of
each axis is applied independently of the other axis's fade value. -/
def claim_tile_weight (actual_height actual_width i j : ℕ) : ℚ :=
  fadeFactor (min 32 (actual_height / 4)) actual_height i *
    fadeFactor (min 32 (actual_width / 4)) actual_width j

lemma rowLoop_eval (fh hdim : ℕ) (wgt : ℕ → ℕ → ℚ) (hfh : 2 * fh ≤ hdim) :
    ∀ k, k ≤ fh → ∀ r c, r < hdim →
      rowLoop fh hdim wgt k r c =
        wgt r c * (if r < k then ((r : ℚ) + 1) / (fh : ℚ) else 1) *
          (if hdim - 1 - r < k then ((hdim : ℚ) - (r : ℚ)) / (fh : ℚ) else 1) := by
  intro k
  induction k with
  | zero =>
    intro _ r c _
    simp [rowLoop]
  | succ k ih =>
    intro hk r c hr
    simp only [rowLoop, rowStep]
    by_cases h1 : r = k
    · subst h1
      rw [if_neg (by omega), if_pos rfl, ih (by omega) r c hr,
          if_neg (by omega : ¬ r < r), if_neg (by omega : ¬ hdim - 1 - r < r),
          if_pos (by omega : r < r + 1), if_neg (by omega : ¬ hdim - 1 - r < r + 1)]
      ring
    · by_cases h2 : r = hdim - 1 - k
      · rw [if_pos h2, if_neg h1, ih (by omega) r c hr,
            if_neg (by omega : ¬ r < k), if_neg (by omega : ¬ hdim - 1 - r < k),
            if_neg (by omega : ¬ r < k + 1), if_pos (by omega : hdim - 1 - r < k + 1)]
        have hc : ((hdim : ℚ) - (r : ℚ)) = (k : ℚ) + 1 := by
          have : r + (k + 1) = hdim := by omega
          have := congrArg (fun n : ℕ => (n : ℚ)) this
          push_cast at this
          linarith
        rw [hc]
        ring
      · rw [if_neg h2, if_neg h1, ih (by omega) r c hr]
        have e1 : (r < k + 1) ↔ (r < k) := by omega
        have e2 : (hdim - 1 - r < k + 1) ↔ (hdim - 1 - r < k) := by omega
        simp only [e1, e2]

lemma colLoop_eval (fw wdim : ℕ) (wgt : ℕ → ℕ → ℚ) (hfw : 2 * fw ≤ wdim) :
    ∀ k, k ≤ fw → ∀ r c, c < wdim →
      colLoop fw wdim wgt k r c =
        wgt r c * (if c < k then ((c : ℚ) + 1) / (fw : ℚ) else 1) *
          (if wdim - 1 - c < k then ((wdim : ℚ) - (c : ℚ)) / (fw : ℚ) else 1) := by
  intro k
  induction k with
  | zero =>
    intro _ r c _
    simp [colLoop]
  | succ k ih =>
    intro hk r c hc
    simp only [colLoop, colStep]
    by_cases h1 : c = k
    · subst h1
      rw [if_neg (by omega), if_pos rfl, ih (by omega) r c hc,
          if_neg (by omega : ¬ c < c), if_neg (by omega : ¬ wdim - 1 - c < c),
          if_pos (by omega : c < c + 1), if_neg (by omega : ¬ wdim - 1 - c < c + 1)]
      ring
    · by_cases h2 : c = wdim - 1 - k
      · rw [if_pos h2, if_neg h1, ih (by omega) r c hc,
            if_neg (by omega : ¬ c < k), if_neg (by omega : ¬ wdim - 1 - c < k),
            if_neg (by omega : ¬ c < k + 1), if_pos (by omega : wdim - 1 - c < k + 1)]
        have hcq : ((wdim : ℚ) - (c : ℚ)) = (k : ℚ) + 1 := by
          have : c + (k + 1) = wdim := by omega
          have := congrArg (fun n : ℕ => (n : ℚ)) this
          push_cast at this
          linarith
        rw [hcq]
        ring
      · rw [if_neg h2, if_neg h1, ih (by omega) r c hc]
        have e1 : (c < k + 1) ↔ (c < k) := by omega
        have e2 : (wdim - 1 - c < k + 1) ↔ (wdim - 1 - c < k) := by omega
        simp only [e1, e2]

/-- The product of the two one-sided ramp factors is the closed-form ramp
(the bands cannot overlap because `2 * fade ≤ dim`). -/
lemma fade_factors_eq (fade dim k : ℕ) (hk : k < dim) (hf : 2 * fade ≤ dim) :
    (if k < fade then ((k : ℚ) + 1) / (fade : ℚ) else 1) *
      (if dim - 1 - k < fade then ((dim : ℚ) - (k : ℚ)) / (fade : ℚ) else 1) =
      fadeFactor fade dim k := by
  rw [fadeFactor]
  by_cases h1 : k < fade
  · rw [if_pos h1, if_pos h1, if_neg (by omega), mul_one]
  · rw [if_neg h1, if_neg h1, one_mul]

/-- C6 -- counterexample: a tile of `actual_height = 128, actual_width = 3`
has `fade_height = 32 > 0` but `fade_width = min(32, 3 // 4) = 0`, and the
code's guard `fade_width > 0 and fade_height > 0` then skips both ramps: the
corner pixel keeps weight `1`, while the claimed per-axis-independent mask
assigns it the vertical ramp value `1/32`. -/
theorem C6_counterexample :
    tile_weight 128 3 0 0 = 1 ∧ claim_tile_weight 128 3 0 0 = 1 / 32 ∧
      (1 : ℚ) ≠ 1 / 32 := by
  refine ⟨?_, ?_, by norm_num⟩
  · rw [tile_weight]
    norm_num
  · rw [claim_tile_weight, fadeFactor, fadeFactor]
    norm_num

/-- C6 (amended) -- the per-tile weight mask equals the product of the two
independent per-axis linear ramps (interior weight 1) whenever **both**
per-axis fade extents `min(32, dim // 4)` are positive; when either axis's
fade extent is zero, no ramp is applied on either axis and the mask is
uniformly 1. -/
theorem C6_weight_mask (actual_height actual_width i j : ℕ)
    (hi : i < actual_height) (hj : j < actual_width) :
    tile_weight actual_height actual_width i j =
      if 0 < min 32 (actual_width / 4) ∧ 0 < min 32 (actual_height / 4) then
        fadeFactor (min 32 (actual_height / 4)) actual_height i *
          fadeFactor (min 32 (actual_width / 4)) actual_width j
      else 1 := by
  rw [tile_weight]
  by_cases hpos : 0 < min 32 (actual_width / 4) ∧ 0 < min 32 (actual_height / 4)
  · rw [if_pos hpos, if_pos hpos]
    have hfw : 2 * min 32 (actual_width / 4) ≤ actual_width := by omega
    have hfh : 2 * min 32 (actual_height / 4) ≤ actual_height := by omega
    rw [colLoop_eval (min 32 (actual_width / 4)) actual_width _ hfw
          (min 32 (actual_width / 4)) (le_refl _) i j hj,
        rowLoop_eval (min 32 (actual_height / 4)) actual_height _ hfh
          (min 32 (actual_height / 4)) (le_refl _) i j hi,
        one_mul, ← fade_factors_eq _ _ _ hi hfh, ← fade_factors_eq _ _ _ hj hfw]
    ring
  · rw [if_neg hpos, if_neg hpos]

theorem C6_weight_mask_witness :
    tile_weight 512 512 0 0 =
      if 0 < min 32 (512 / 4) ∧ 0 < min 32 (512 / 4) then
        fadeFactor (min 32 (512 / 4)) 512 0 * fadeFactor (min 32 (512 / 4)) 512 0
      else 1 :=
  C6_weight_mask 512 512 0 0 (by decide) (by decide)

/-! ## Reconstruction (`ImprovedImageMerger.merge_single_image`) -/

/-- `pathlib.Path(name).stem`: the name without its final extension. -/
def pathStem (s : String) : String :=
  let parts := s.splitOn "."
  if parts.length ≤ 1 then s else String.intercalate "." parts.dropLast

/-- Candidate inference-result filenames tried in order,
`merge_single_image` lines 268-272. -/
def possible_names (tile_filename : String) : List String :=
  [tile_filename,
   tile_filename.replace ".png" "_pred.png",
   pathStem tile_filename ++ ".png"]

/-- Look up the first existing candidate in the inference directory
(modelled as a partial map from filename to pixel data), lines 274-279. -/
def findInferenceTile (dir : String → Option (ℕ → ℕ → ℕ → ℚ))
    (tile_filename : String) : Option (ℕ → ℕ → ℕ → ℚ) :=
  (possible_names tile_filename).findSome? dir

/-- One tile record as read back from the manifest by the merger. -/
structure MergeTile where
  filename : String
  x_start : ℕ
  y_start : ℕ
  x_end : ℕ
  y_end : ℕ

/-- The manifest data `merge_single_image` consumes for one image. -/
structure ImagePlan where
  original_width : ℕ
  original_height : ℕ
  tiles : List MergeTile

/-- Accumulation state: `accumulated_img`, `weight_matrix`, `missing_tiles`
(lines 259-263). -/
structure MergeAcc where
  acc : ℕ → ℕ → ℕ → ℚ
  weight : ℕ → ℕ → ℚ
  missing : List String

/-- Accumulate one found tile (lines 286-320): crop to the actual extent,
weight by `tile_weight`, and add into the accumulation buffers over the
rectangle `[y_start, y_end) x [x_start, x_end)` clipped to the image. -/
def applyTile (h w : ℕ) (st : MergeAcc) (t : MergeTile)
    (img : ℕ → ℕ → ℕ → ℚ) : MergeAcc :=
  let tw := tile_weight (t.y_end - t.y_start) (t.x_end - t.x_start)
  { acc := fun r c ch =>
      if t.y_start ≤ r ∧ r < min t.y_end h ∧ t.x_start ≤ c ∧ c < min t.x_end w then
        st.acc r c ch +
          img (r - t.y_start) (c - t.x_start) ch * tw (r - t.y_start) (c - t.x_start)
      else st.acc r c ch
    weight := fun r c =>
      if t.y_start ≤ r ∧ r < min t.y_end h ∧ t.x_start ≤ c ∧ c < min t.x_end w then
        st.weight r c + tw (r - t.y_start) (c - t.x_start)
      else st.weight r c
    missing := st.missing }

/-- Process one manifest tile (lines 265-320): tiles with no matching
inference file are appended to `missing_tiles` and skipped. -/
def mergeStep (dir : String → Option (ℕ → ℕ → ℕ → ℚ)) (h w : ℕ)
    (st : MergeAcc) (t : MergeTile) : MergeAcc :=
  match findInferenceTile dir t.filename with
  | none => { st with missing := st.missing ++ [t.filename] }
  | some img => applyTile h w st t img

/-- The accumulation state after the tile loop of `merge_single_image`. -/
def mergeState (plan : ImagePlan) (dir : String → Option (ℕ → ℕ → ℕ → ℚ)) :
    MergeAcc :=
  plan.tiles.foldl (mergeStep dir plan.original_height plan.original_width)
    ⟨fun _ _ _ => 0, fun _ _ => 0, []⟩

/-- `weight_matrix[weight_matrix == 0] = 1` (line 323). -/
def finalWeight (wgt : ℕ → ℕ → ℚ) (r c : ℕ) : ℚ :=
  if wgt r c = 0 then 1 else wgt r c

/-- `np.clip(x, 0, 255).astype(np.uint8)` (line 327) on one channel value. -/
def clipByte (q : ℚ) : ℤ := pyInt (min (max q 0) 255)

/-- `merge_single_image` (lines 245-331): returns the output pixel function,
the output dimensions `(width, height)`, and the missing-tile report. -/
def merge_single_image (plan : ImagePlan)
    (dir : String → Option (ℕ → ℕ → ℕ → ℚ)) :
    (ℕ → ℕ → ℕ → ℤ) × ℕ × ℕ × List String :=
  let st := mergeState plan dir
  (fun r c ch => clipByte (st.acc r c ch / finalWeight st.weight r c),
   plan.original_width, plan.original_height, st.missing)

lemma clipByte_bounds (q : ℚ) : 0 ≤ clipByte q ∧ clipByte q ≤ 255 := by
  have h0 : (0 : ℚ) ≤ min (max q 0) 255 := le_min (le_max_right q 0) (by norm_num)
  rw [clipByte, pyInt_of_nonneg h0]
  constructor
  · exact Int.floor_nonneg.mpr h0
  · have h1 : min (max q 0) 255 ≤ (((255 : ℤ) : ℚ)) := by
      push_cast
      exact min_le_right _ _
    calc ⌊min (max q 0) 255⌋ ≤ ⌊(((255 : ℤ) : ℚ))⌋ := Int.floor_le_floor h1
      _ = 255 := Int.floor_intCast _

lemma mergeState_missing (dir : String → Option (ℕ → ℕ → ℕ → ℚ)) (h w : ℕ) :
    ∀ (tiles : List MergeTile) (st : MergeAcc),
      (tiles.foldl (mergeStep dir h w) st).missing =
        st.missing ++
          (tiles.filter (fun t => (findInferenceTile dir t.filename).isNone)).map
            MergeTile.filename := by
  intro tiles
  induction tiles with
  | nil =>
    intro st
    simp
  | cons t ts ih =>
    intro st
    rw [List.foldl_cons, ih]
    rcases hf : findInferenceTile dir t.filename with _ | img
    · rw [List.filter_cons_of_pos (by simp [hf]), List.map_cons]
      rw [mergeStep, hf]
      simp
    · rw [List.filter_cons_of_neg (by simp [hf])]
      rw [mergeStep, hf]
      rfl

/-- C7 -- Merge safety: for every plan and every inference directory
(including ones missing some or all tiles) the merger records unmatched
tiles in `missing_tiles` and skips them; the finalization replaces every
zero accumulated weight by one so the division is never by zero; the final
pixels are `acc / weight` clamped to `[0, 255]` as 8-bit integers; and the
output dimensions are exactly `(original_width, original_height)`. -/
theorem C7_merge_safety (plan : ImagePlan)
    (dir : String → Option (ℕ → ℕ → ℕ → ℚ)) :
    ((merge_single_image plan dir).2.1 = plan.original_width ∧
     (merge_single_image plan dir).2.2.1 = plan.original_height) ∧
    ((merge_single_image plan dir).2.2.2 =
      (plan.tiles.filter (fun t => (findInferenceTile dir t.filename).isNone)).map
        MergeTile.filename) ∧
    (∀ t ∈ plan.tiles, findInferenceTile dir t.filename = none →
      t.filename ∈ (merge_single_image plan dir).2.2.2) ∧
    (∀ r c, finalWeight (mergeState plan dir).weight r c ≠ 0) ∧
    (∀ r c ch,
      (merge_single_image plan dir).1 r c ch =
        clipByte ((mergeState plan dir).acc r c ch /
          finalWeight (mergeState plan dir).weight r c) ∧
      0 ≤ (merge_single_image plan dir).1 r c ch ∧
      (merge_single_image plan dir).1 r c ch ≤ 255) := by
  have hmiss : (merge_single_image plan dir).2.2.2 =
      (plan.tiles.filter (fun t => (findInferenceTile dir t.filename).isNone)).map
        MergeTile.filename := by
    show (mergeState plan dir).missing = _
    rw [mergeState,
        mergeState_missing dir plan.original_height plan.original_width plan.tiles]
    simp
  refine ⟨⟨rfl, rfl⟩, hmiss, ?_, ?_, ?_⟩
  · intro t ht hnone
    rw [hmiss]
    exact List.mem_map.mpr ⟨t, List.mem_filter.mpr ⟨ht, by simp [hnone]⟩, rfl⟩
  · intro r c
    rw [finalWeight]
    split
    · norm_num
    · next hne => exact hne
  · intro r c ch
    exact ⟨rfl, (clipByte_bounds _).1, (clipByte_bounds _).2⟩

theorem C7_merge_safety_witness :
    ("a.png" ∈ (merge_single_image ⟨10, 10, [⟨"a.png", 0, 0, 5, 5⟩]⟩
        (fun _ => none)).2.2.2) :=
  (C7_merge_safety ⟨10, 10, [⟨"a.png", 0, 0, 5, 5⟩]⟩ (fun _ => none)).2.2.1
    ⟨"a.png", 0, 0, 5, 5⟩ (List.mem_singleton.mpr rfl) rfl

/-! ## Label increment (`changepngvalue.py`) -/

/-- Per-pixel transform of `increment_label_pixels` /
`increment_single_labels_dir` on a single-channel uint8 label image
(lines 52-57 and 113-118): `img_array + 1` is numpy uint8 arithmetic, i.e.
wraparound addition modulo 256, and only then `np.clip(., 0, 255)` is
applied. -/
def incrementPixel (v : ℕ) : ℕ := min (max ((v + 1) % 256) 0) 255

/-- The whole-image transform: every pixel incremented. -/
def increment_label_pixels (pixels : List ℕ) : List ℕ :=
  pixels.map incrementPixel

/-- C9 -- on uint8 label data the increment wraps around before the clamp,
so value `255` becomes `0` (it is not held at `255`) and any `v < 255`
becomes `v + 1`. -/
theorem C9_increment_wraparound (pixels : List ℕ)
    (hb : ∀ v ∈ pixels, v < 256) :
    increment_label_pixels pixels =
      pixels.map (fun v => if v = 255 then 0 else v + 1) := by
  rw [increment_label_pixels]
  apply List.map_congr_left
  intro v hv
  have hvb := hb v hv
  rw [incrementPixel]
  by_cases h255 : v = 255
  · subst h255
    decide
  · have hlt : v + 1 < 256 := by omega
    rw [Nat.mod_eq_of_lt hlt, if_neg h255]
    omega

theorem C9_increment_wraparound_witness :
    increment_label_pixels [0, 254, 255] =
      [0, 254, 255].map (fun v => if v = 255 then 0 else v + 1) :=
  C9_increment_wraparound [0, 254, 255] (by decide)

/-! ## Fixed-stride cropper (`cropandsplit.py`, `process_dataset`) -/

/-- One saved crop rectangle. -/
structure CropRect where
  left : ℕ
  top : ℕ
  right : ℕ
  bottom : ℕ
deriving DecidableEq

/-- The crop rectangles saved by `process_dataset` (lines 84-111):
`n_cols/n_rows = ceil(dim / crop_size)` candidate positions at fixed stride
`crop_size`, with every candidate whose clipped extent falls short of
`crop_size` skipped entirely. -/
def process_dataset_crops (width height crop_size : ℕ) : List CropRect :=
  let n_cols := (width + crop_size - 1) / crop_size
  let n_rows := (height + crop_size - 1) / crop_size
  (List.range n_rows).flatMap (fun i =>
    (List.range n_cols).filterMap (fun j =>
      let left := j * crop_size
      let top := i * crop_size
      let rightEdge := min (left + crop_size) width
      let bottomEdge := min (top + crop_size) height
      if rightEdge - left < crop_size ∨ bottomEdge - top < crop_size then none
      else some ⟨left, top, rightEdge, bottomEdge⟩))

/-- Every saved crop is a full-size block at grid position `(i, j)` fitting
entirely inside the image. -/
lemma mem_process_dataset_crops {width height crop_size : ℕ} {r : CropRect}
    (hcs : 0 < crop_size)
    (hr : r ∈ process_dataset_crops width height crop_size) :
    ∃ i j : ℕ,
      r = ⟨j * crop_size, i * crop_size,
           j * crop_size + crop_size, i * crop_size + crop_size⟩ ∧
      j * crop_size + crop_size ≤ width ∧ i * crop_size + crop_size ≤ height := by
  simp only [process_dataset_crops, List.mem_flatMap, List.mem_filterMap,
    List.mem_range] at hr
  obtain ⟨i, _hi, j, _hj, hf⟩ := hr
  split at hf
  · exact absurd hf (by simp)
  · next hcond =>
    push_neg at hcond
    obtain ⟨h1, h2⟩ := hcond
    have hle1 := min_le_left (j * crop_size + crop_size) width
    have hge1 : j * crop_size + crop_size ≤ min (j * crop_size + crop_size) width := by
      omega
    have hw : j * crop_size + crop_size ≤ width :=
      le_trans hge1 (min_le_right _ _)
    have hle2 := min_le_left (i * crop_size + crop_size) height
    have hge2 : i * crop_size + crop_size ≤ min (i * crop_size + crop_size) height := by
      omega
    have hh : i * crop_size + crop_size ≤ height :=
      le_trans hge2 (min_le_right _ _)
    rw [min_eq_left hw, min_eq_left hh] at hf
    exact ⟨i, j, (Option.some_inj.mp hf).symm, hw, hh⟩

/-- C10 -- the fixed-stride cropper is lossy at the right and bottom
borders: every saved crop is exactly `crop_size` in both extents (short
candidates are skipped, never saved), and no saved crop covers any pixel
column in the last `width % crop_size` columns or any pixel row in the last
`height % crop_size` rows. -/
theorem C10_cropper_lossy (width height crop_size : ℕ) (hcs : 0 < crop_size) :
    (∀ r ∈ process_dataset_crops width height crop_size,
      r.right - r.left = crop_size ∧ r.bottom - r.top = crop_size ∧
      r.right ≤ width ∧ r.bottom ≤ height) ∧
    (∀ x, width - width % crop_size ≤ x →
      ∀ r ∈ process_dataset_crops width height crop_size,
        ¬ (r.left ≤ x ∧ x < r.right)) ∧
    (∀ y, height - height % crop_size ≤ y →
      ∀ r ∈ process_dataset_crops width height crop_size,
        ¬ (r.top ≤ y ∧ y < r.bottom)) := by
  have hkey : ∀ (dim e : ℕ), e * crop_size + crop_size ≤ dim →
      e * crop_size + crop_size ≤ dim - dim % crop_size := by
    intro dim e he
    have h1 : e + 1 ≤ dim / crop_size := by
      rw [Nat.le_div_iff_mul_le hcs]
      calc (e + 1) * crop_size = e * crop_size + crop_size := by ring
        _ ≤ dim := he
    have h2 : (e + 1) * crop_size ≤ (dim / crop_size) * crop_size :=
      Nat.mul_le_mul_right crop_size h1
    have h3 := Nat.mod_add_div dim crop_size
    rw [Nat.mul_comm crop_size (dim / crop_size)] at h3
    calc e * crop_size + crop_size = (e + 1) * crop_size := by ring
      _ ≤ (dim / crop_size) * crop_size := h2
      _ ≤ dim - dim % crop_size := by omega
  refine ⟨?_, ?_, ?_⟩
  · intro r hr
    obtain ⟨i, j, rfl, hw, hh⟩ := mem_process_dataset_crops hcs hr
    dsimp only
    exact ⟨by omega, by omega, hw, hh⟩
  · intro x hx r hr
    obtain ⟨i, j, rfl, hw, _hh⟩ := mem_process_dataset_crops hcs hr
    have := hkey width j hw
    rintro ⟨hl, hlt⟩
    dsimp only at hl hlt
    omega
  · intro y hy r hr
    obtain ⟨i, j, rfl, _hw, hh⟩ := mem_process_dataset_crops hcs hr
    have := hkey height i hh
    rintro ⟨hl, hlt⟩
    dsimp only at hl hlt
    omega

theorem C10_cropper_lossy_witness :
    ¬ ((⟨0, 0, 512, 512⟩ : CropRect).left ≤ 999 ∧
        999 < (⟨0, 0, 512, 512⟩ : CropRect).right) :=
  (C10_cropper_lossy 1000 800 512 (by decide)).2.1 999 (by decide)
    ⟨0, 0, 512, 512⟩ (by decide)
